import Mathlib

/-!
Verification of the stage/interface/solution engine of the
moveit_task_constructor repository against its natural-language
specification.

The development shallowly embeds the relevant parts of
`core/include/moveit/task_constructor/stage_p.h` and
`visualization/motion_planning_tasks/task_display.cpp`.
Bodies that live in files not present in the sources at hand
(`cost_queue.h`, `stage.cpp`) are modelled from the specification and
marked as such in their doc comments.
-/

namespace MTC

/-! ## The cost-ordered container `ordered<T>` -/

/-- Modelled from the spec: `cost_queue.h` (the `ordered<T>` container used
for pending pairs and solution lists) is not among the sources. Spec §4.1:
insertion preserves ascending sort order, ties broken by insertion order
(FIFO among equal priority). A new element is inserted before the first
strictly greater element, i.e. after all existing elements of equal key. -/
def orderedInsert {α : Type} (key : α → Nat) (x : α) : List α → List α
  | [] => [x]
  | y :: q => if key x < key y then x :: y :: q else y :: orderedInsert key x q

/-- Modelled from the spec: the container state reached by inserting a given
sequence of elements, one by one, into an initially empty `ordered<T>`. -/
def buildOrdered {α : Type} (key : α → Nat) (xs : List α) : List α :=
  xs.foldl (fun q x => orderedInsert key x q) []

/-- A list is sorted by ascending key. -/
abbrev sortedLe {α : Type} (key : α → Nat) (l : List α) : Prop :=
  List.Pairwise (fun a b => key a ≤ key b) l

theorem mem_orderedInsert {α : Type} (key : α → Nat) (x a : α) :
    ∀ q : List α, a ∈ orderedInsert key x q ↔ a = x ∨ a ∈ q := by
  intro q
  induction q with
  | nil => simp [orderedInsert]
  | cons y q ih =>
    by_cases h : key x < key y
    · simp [orderedInsert, h]
    · simp only [orderedInsert, if_neg h, List.mem_cons, ih]
      tauto

theorem length_orderedInsert {α : Type} (key : α → Nat) (x : α) :
    ∀ q : List α, (orderedInsert key x q).length = q.length + 1 := by
  intro q
  induction q with
  | nil => rfl
  | cons y q ih =>
    by_cases h : key x < key y
    · simp [orderedInsert, h]
    · simp [orderedInsert, h, ih]

theorem perm_orderedInsert {α : Type} (key : α → Nat) (x : α) :
    ∀ q : List α, List.Perm (orderedInsert key x q) (x :: q) := by
  intro q
  induction q with
  | nil => exact List.Perm.refl _
  | cons y q ih =>
    by_cases h : key x < key y
    · simp [orderedInsert, h]
    · simp only [orderedInsert, if_neg h]
      exact (ih.cons y).trans (List.Perm.swap x y q)

theorem sorted_orderedInsert {α : Type} (key : α → Nat) (x : α)
    (q : List α) (hq : sortedLe key q) : sortedLe key (orderedInsert key x q) := by
  induction q with
  | nil => simp [orderedInsert, sortedLe]
  | cons y q ih =>
    rcases List.pairwise_cons.mp hq with ⟨hy, hq'⟩
    by_cases h : key x < key y
    · have hstep : orderedInsert key x (y :: q) = x :: y :: q := by
        simp [orderedInsert, h]
      rw [hstep]
      refine List.pairwise_cons.mpr ⟨?_, hq⟩
      intro b hb
      rcases List.mem_cons.mp hb with hb | hb
      · exact hb ▸ Nat.le_of_lt h
      · exact Nat.le_trans (Nat.le_of_lt h) (hy b hb)
    · have hstep : orderedInsert key x (y :: q) = y :: orderedInsert key x q := by
        simp [orderedInsert, h]
      rw [hstep]
      refine List.pairwise_cons.mpr ⟨?_, ih hq'⟩
      intro b hb
      rcases (mem_orderedInsert key x b q).mp hb with hb | hb
      · exact hb ▸ Nat.le_of_not_lt h
      · exact hy b hb

theorem filter_orderedInsert {α : Type} (key : α → Nat) (x : α) (c : Nat)
    (q : List α) (hq : sortedLe key q) :
    (orderedInsert key x q).filter (fun a => key a == c) =
      q.filter (fun a => key a == c) ++ (if key x == c then [x] else []) := by
  induction q with
  | nil => cases h : (key x == c) <;> simp [orderedInsert, h]
  | cons y q ih =>
    rcases List.pairwise_cons.mp hq with ⟨hy, hq'⟩
    by_cases h : key x < key y
    · have hstep : orderedInsert key x (y :: q) = x :: y :: q := by
        simp [orderedInsert, h]
      rw [hstep, List.filter_cons]
      cases hxc : (key x == c) with
      | false => simp
      | true =>
        have hxeq : key x = c := by
          have := (beq_iff_eq (a := key x) (b := c)).mp hxc
          exact this
        have hnil : (y :: q).filter (fun a => key a == c) = [] := by
          apply List.filter_eq_nil_iff.mpr
          intro b hb
          have hyb : key y ≤ key b := by
            rcases List.mem_cons.mp hb with hb | hb
            · exact hb ▸ Nat.le_refl _
            · exact hy b hb
          have hlt : key x < key b := Nat.lt_of_lt_of_le h hyb
          simp only [beq_eq_false_iff_ne, ne_eq, Bool.not_eq_true]
          intro hbc
          exact absurd (hxeq.trans hbc.symm) (Nat.ne_of_lt hlt)
        rw [hnil]
        simp
    · have hstep : orderedInsert key x (y :: q) = y :: orderedInsert key x q := by
        simp [orderedInsert, h]
      rw [hstep, List.filter_cons, ih hq', List.filter_cons]
      cases hyc : (key y == c) <;> simp

theorem sorted_buildOrdered_aux {α : Type} (key : α → Nat) (xs : List α) :
    ∀ q : List α, sortedLe key q → sortedLe key (xs.foldl (fun q x => orderedInsert key x q) q) := by
  induction xs with
  | nil => intro q hq; exact hq
  | cons x xs ih =>
    intro q hq
    exact ih _ (sorted_orderedInsert key x q hq)

theorem filter_buildOrdered_aux {α : Type} (key : α → Nat) (c : Nat) (xs : List α) :
    ∀ q : List α, sortedLe key q →
      (xs.foldl (fun q x => orderedInsert key x q) q).filter (fun a => key a == c) =
        q.filter (fun a => key a == c) ++ xs.filter (fun a => key a == c) := by
  induction xs with
  | nil => intro q _; simp
  | cons x xs ih =>
    intro q hq
    rw [List.foldl_cons, ih _ (sorted_orderedInsert key x q hq),
        filter_orderedInsert key x c q hq]
    cases hxc : (key x == c) <;> simp [List.filter, hxc]

/-! ## The Connecting stage -/

/-- An interface state as seen by the Connecting stage: an identity (standing
for the distinct `Interface::const_iterator` of the C++ code) and the
accumulated priority. Priorities are modelled as natural numbers; the
comparator in the source only uses `priority()`, `+` and `<`. -/
structure IState where
  id : Nat
  priority : Nat
deriving DecidableEq

/-- `ConnectingPrivate::StatePair`: a pair of a start-side and an end-side
interface state. -/
abbrev StatePair := IState × IState

/-- The key by which `ConnectingPrivate::StatePairLess` compares pending
pairs: the sum of the two states' priorities (from the source,
`stage_p.h` lines 249-253). -/
def pairKey (p : StatePair) : Nat := p.1.priority + p.2.priority

/-- `ConnectingPrivate::StatePairLess::operator()` from the source:
`x.first->priority() + x.second->priority() < y.first->priority() + y.second->priority()`. -/
def statePairLess (x y : StatePair) : Bool := pairKey x < pairKey y

/-- State of a `ConnectingPrivate` instance: the states available on the two
pull interfaces, the `ordered` list of pending pairs, and the pairs that
`compute()` has already popped. -/
structure ConnState where
  starts : List IState
  ends : List IState
  pending : List StatePair
  popped : List StatePair
deriving DecidableEq

/-- Modelled from the spec: `ConnectingPrivate::newState` (declared in
`stage_p.h` lines 266-268, body in `stage.cpp`, not among the sources).
Spec §4.5: on a new state arriving at the start interface, form new pairs
with every currently-available state on the end side and insert them into
the pending queue. -/
def newStart (cs : ConnState) (s : IState) : ConnState :=
  { cs with
    starts := cs.starts ++ [s]
    pending := cs.ends.foldl (fun q e => orderedInsert pairKey (s, e) q) cs.pending }

/-- Modelled from the spec: the mirror case of `ConnectingPrivate::newState`
for a new state arriving at the end interface, paired with every
currently-available start state. -/
def newEnd (cs : ConnState) (e : IState) : ConnState :=
  { cs with
    ends := cs.ends ++ [e]
    pending := cs.starts.foldl (fun q b => orderedInsert pairKey (b, e) q) cs.pending }

/-- Modelled from the spec: the pop performed by `ConnectingPrivate::compute`
(§4.5): pops the best pending pair (the front of the ascending-ordered
queue); a pair is never re-attempted once popped. On an empty queue nothing
happens (the scheduler never calls `compute()` then, cf. `canCompute`). -/
def popPending (cs : ConnState) : ConnState :=
  match cs.pending with
  | [] => cs
  | p :: rest => { cs with pending := rest, popped := cs.popped ++ [p] }

/-- Modelled from the spec: `ConnectingPrivate::canCompute` (declared in
`stage_p.h` line 262, body in `stage.cpp`, not among the sources).
Spec §4.5: true iff the pending queue is non-empty. -/
def canComputeC (cs : ConnState) : Bool := !cs.pending.isEmpty

/-- Events driving a Connecting stage: a state arriving on either interface,
or one `compute()` step popping the best pending pair. -/
inductive CEvent
  | arriveStart (s : IState)
  | arriveEnd (s : IState)
  | popBest
deriving DecidableEq

/-- One step of the Connecting stage under an event. -/
def stepC (cs : ConnState) : CEvent → ConnState
  | .arriveStart s => newStart cs s
  | .arriveEnd s => newEnd cs s
  | .popBest => popPending cs

/-- The Connecting stage state reached from the empty initial state by a
sequence of events. -/
def runC (evs : List CEvent) : ConnState :=
  evs.foldl stepC ⟨[], [], [], []⟩

/-- The start-side states arriving in an event sequence, in order. -/
def startArrivals : List CEvent → List IState
  | [] => []
  | .arriveStart s :: evs => s :: startArrivals evs
  | _ :: evs => startArrivals evs

/-- The end-side states arriving in an event sequence, in order. -/
def endArrivals : List CEvent → List IState
  | [] => []
  | .arriveEnd s :: evs => s :: endArrivals evs
  | _ :: evs => endArrivals evs

/-- The identities of all states arriving in an event sequence. -/
def arrivalIds : List CEvent → List Nat
  | [] => []
  | .arriveStart s :: evs => s.id :: arrivalIds evs
  | .arriveEnd s :: evs => s.id :: arrivalIds evs
  | .popBest :: evs => arrivalIds evs

/-- All pairs of a start-side state with an end-side state. -/
def allPairs : List IState → List IState → List StatePair
  | [], _ => []
  | b :: bs, es => es.map (fun e => (b, e)) ++ allPairs bs es

/-- The pair of identities of a state pair. -/
def idPair (p : StatePair) : Nat × Nat := (p.1.id, p.2.id)

theorem foldl_invariant (P : ConnState → Prop)
    (hstep : ∀ cs e, P cs → P (stepC cs e)) :
    ∀ (evs : List CEvent) (cs : ConnState), P cs → P (evs.foldl stepC cs) := by
  intro evs
  induction evs with
  | nil => intro cs h; exact h
  | cons e evs ih => intro cs h; exact ih (stepC cs e) (hstep cs e h)

theorem sorted_foldl_orderedInsert {α β : Type} (key : α → Nat) (f : β → α)
    (xs : List β) :
    ∀ q : List α, sortedLe key q →
      sortedLe key (xs.foldl (fun q x => orderedInsert key (f x) q) q) := by
  induction xs with
  | nil => intro q hq; exact hq
  | cons x xs ih => intro q hq; exact ih _ (sorted_orderedInsert key (f x) q hq)

theorem perm_foldl_orderedInsert {α β : Type} (key : α → Nat) (f : β → α)
    (xs : List β) :
    ∀ q : List α,
      List.Perm (xs.foldl (fun q x => orderedInsert key (f x) q) q) (xs.map f ++ q) := by
  induction xs with
  | nil => intro q; exact List.Perm.refl _
  | cons x xs ih =>
    intro q
    refine (ih (orderedInsert key (f x) q)).trans ?_
    refine (List.Perm.append_left (xs.map f) (perm_orderedInsert key (f x) q)).trans ?_
    exact List.perm_middle

theorem sorted_pending (evs : List CEvent) : sortedLe pairKey (runC evs).pending := by
  have h := foldl_invariant (fun cs => sortedLe pairKey cs.pending) ?_ evs ⟨[], [], [], []⟩ ?_
  · exact h
  · intro cs e hcs
    cases e with
    | arriveStart s => exact sorted_foldl_orderedInsert pairKey (fun e => (s, e)) cs.ends _ hcs
    | arriveEnd s => exact sorted_foldl_orderedInsert pairKey (fun b => (b, s)) cs.starts _ hcs
    | popBest =>
      show sortedLe pairKey (popPending cs).pending
      cases hp : cs.pending with
      | nil => simp [popPending, hp]
      | cons p rest =>
        rw [hp] at hcs
        simpa [popPending, hp] using (List.pairwise_cons.mp hcs).2
  · simp [sortedLe]

theorem allPairs_append_left (bs es : List IState) (s : IState) :
    allPairs (bs ++ [s]) es = allPairs bs es ++ es.map (fun e => (s, e)) := by
  induction bs with
  | nil => simp [allPairs]
  | cons b bs ih => simp [allPairs, ih]

theorem allPairs_append_right (bs es : List IState) (e : IState) :
    List.Perm (allPairs bs (es ++ [e])) (allPairs bs es ++ bs.map (fun b => (b, e))) := by
  induction bs with
  | nil => simp [allPairs]
  | cons b bs ih =>
    show List.Perm ((es ++ [e]).map (fun x => (b, x)) ++ allPairs bs (es ++ [e]))
      ((es.map (fun x => (b, x)) ++ allPairs bs es) ++ ((b, e) :: bs.map (fun x => (x, e))))
    have h1 : (es ++ [e]).map (fun x => (b, x)) ++ allPairs bs (es ++ [e])
        = es.map (fun x => (b, x)) ++ ((b, e) :: allPairs bs (es ++ [e])) := by
      simp
    have h4 : (es.map (fun x => (b, x)) ++ allPairs bs es) ++ ((b, e) :: bs.map (fun x => (x, e)))
        = es.map (fun x => (b, x)) ++ (allPairs bs es ++ (b, e) :: bs.map (fun x => (x, e))) := by
      simp
    rw [h1, h4]
    refine List.Perm.append_left _ ?_
    exact (List.Perm.cons _ ih).trans List.perm_middle.symm

theorem allPairs_length (bs es : List IState) :
    (allPairs bs es).length = bs.length * es.length := by
  induction bs with
  | nil => simp [allPairs]
  | cons b bs ih => simp [allPairs, ih, Nat.succ_mul, Nat.add_comm]

theorem mem_allPairs (p : StatePair) (bs es : List IState) :
    p ∈ allPairs bs es ↔ p.1 ∈ bs ∧ p.2 ∈ es := by
  induction bs with
  | nil => simp [allPairs]
  | cons b bs ih =>
    simp only [allPairs, List.mem_append, List.mem_map, ih, List.mem_cons]
    constructor
    · rintro (⟨e, he, rfl⟩ | ⟨h1, h2⟩)
      · exact ⟨Or.inl rfl, he⟩
      · exact ⟨Or.inr h1, h2⟩
    · rintro ⟨h1 | h1, h2⟩
      · exact Or.inl ⟨p.2, h2, by rw [← h1]⟩
      · exact Or.inr ⟨h1, h2⟩

theorem perm_pending_popped (evs : List CEvent) :
    List.Perm ((runC evs).pending ++ (runC evs).popped)
      (allPairs (runC evs).starts (runC evs).ends) := by
  refine foldl_invariant
    (fun cs => List.Perm (cs.pending ++ cs.popped) (allPairs cs.starts cs.ends))
    ?_ evs ⟨[], [], [], []⟩ (by simp [allPairs])
  intro cs e hcs
  cases e with
  | arriveStart s =>
    show List.Perm ((newStart cs s).pending ++ (newStart cs s).popped)
      (allPairs (newStart cs s).starts (newStart cs s).ends)
    simp only [newStart]
    rw [allPairs_append_left]
    refine ((perm_foldl_orderedInsert pairKey (fun e => (s, e)) cs.ends cs.pending).append_right cs.popped).trans ?_
    rw [List.append_assoc]
    refine (List.Perm.append_left _ hcs).trans ?_
    exact List.perm_append_comm
  | arriveEnd s =>
    show List.Perm ((newEnd cs s).pending ++ (newEnd cs s).popped)
      (allPairs (newEnd cs s).starts (newEnd cs s).ends)
    simp only [newEnd]
    refine ((perm_foldl_orderedInsert pairKey (fun b => (b, s)) cs.starts cs.pending).append_right cs.popped).trans ?_
    rw [List.append_assoc]
    refine (List.Perm.append_left _ hcs).trans ?_
    exact List.perm_append_comm.trans (allPairs_append_right cs.starts cs.ends s).symm
  | popBest =>
    show List.Perm ((popPending cs).pending ++ (popPending cs).popped)
      (allPairs (popPending cs).starts (popPending cs).ends)
    cases hp : cs.pending with
    | nil =>
      have hstep : popPending cs = cs := by simp [popPending, hp]
      rw [hstep]
      exact hcs
    | cons p rest =>
      have hstep : popPending cs = { cs with pending := rest, popped := cs.popped ++ [p] } := by
        simp [popPending, hp]
      rw [hstep]
      show List.Perm (rest ++ (cs.popped ++ [p])) (allPairs cs.starts cs.ends)
      refine List.Perm.trans ?_ hcs
      rw [hp]
      show List.Perm (rest ++ (cs.popped ++ [p])) ((p :: rest) ++ cs.popped)
      refine (List.Perm.append_left rest (List.perm_append_singleton p cs.popped)).trans ?_
      exact List.perm_middle

theorem pending_popped_length (evs : List CEvent) :
    (runC evs).pending.length + (runC evs).popped.length
      = (runC evs).starts.length * (runC evs).ends.length := by
  have h := (perm_pending_popped evs).length_eq
  rw [List.length_append, allPairs_length] at h
  exact h

theorem starts_ends_run (evs : List CEvent) :
    ∀ cs : ConnState,
      (evs.foldl stepC cs).starts = cs.starts ++ startArrivals evs
      ∧ (evs.foldl stepC cs).ends = cs.ends ++ endArrivals evs := by
  induction evs with
  | nil => intro cs; simp [startArrivals, endArrivals]
  | cons e evs ih =>
    intro cs
    rcases ih (stepC cs e) with ⟨h1, h2⟩
    cases e with
    | arriveStart s =>
      refine ⟨?_, ?_⟩
      · rw [List.foldl_cons, h1]; simp [stepC, newStart, startArrivals]
      · rw [List.foldl_cons, h2]; simp [stepC, newStart, endArrivals]
    | arriveEnd s =>
      refine ⟨?_, ?_⟩
      · rw [List.foldl_cons, h1]; simp [stepC, newEnd, startArrivals]
      · rw [List.foldl_cons, h2]; simp [stepC, newEnd, endArrivals]
    | popBest =>
      refine ⟨?_, ?_⟩
      · rw [List.foldl_cons, h1]
        have : (stepC cs .popBest).starts = cs.starts := by
          show (popPending cs).starts = cs.starts
          cases hp : cs.pending <;> simp [popPending, hp]
        rw [this]; simp [startArrivals]
      · rw [List.foldl_cons, h2]
        have : (stepC cs .popBest).ends = cs.ends := by
          show (popPending cs).ends = cs.ends
          cases hp : cs.pending <;> simp [popPending, hp]
        rw [this]; simp [endArrivals]

theorem starts_run (evs : List CEvent) : (runC evs).starts = startArrivals evs := by
  have h := (starts_ends_run evs ⟨[], [], [], []⟩).1
  simpa using h

theorem ends_run (evs : List CEvent) : (runC evs).ends = endArrivals evs := by
  have h := (starts_ends_run evs ⟨[], [], [], []⟩).2
  simpa using h

theorem nodup_allPairs_idPair (bs es : List IState)
    (hbs : (bs.map IState.id).Nodup) (hes : (es.map IState.id).Nodup) :
    ((allPairs bs es).map idPair).Nodup := by
  induction bs with
  | nil => simp [allPairs]
  | cons b bs ih =>
    rw [List.map_cons, List.nodup_cons] at hbs
    show ((es.map (fun e => (b, e)) ++ allPairs bs es).map idPair).Nodup
    rw [List.map_append]
    refine List.nodup_append.mpr ⟨?_, ih hbs.2, ?_⟩
    · have : (es.map (fun e => (b, e))).map idPair
          = (es.map IState.id).map (fun i => (b.id, i)) := by
        simp [idPair, Function.comp]
      rw [this]
      refine hes.map ?_
      intro i j hij
      exact (Prod.mk.injEq _ _ _ _).mp hij |>.2
    · intro a ha hb
      rcases List.mem_map.mp ha with ⟨q, hq, rfl⟩
      rcases List.mem_map.mp hq with ⟨e, _, rfl⟩
      rcases List.mem_map.mp hb with ⟨p, hp, hpe⟩
      have hmem := (mem_allPairs p bs es).mp hp
      have : p.1.id = b.id := by
        have := congrArg Prod.fst hpe
        simpa [idPair] using this
      exact hbs.1 (this ▸ List.mem_map.mpr ⟨p.1, hmem.1, rfl⟩)

theorem startArrivals_sublist (evs : List CEvent) :
    List.Sublist ((startArrivals evs).map IState.id) (arrivalIds evs) := by
  induction evs with
  | nil => simp [startArrivals, arrivalIds]
  | cons e evs ih =>
    cases e with
    | arriveStart s =>
      show List.Sublist (s.id :: (startArrivals evs).map IState.id) (s.id :: arrivalIds evs)
      exact ih.cons₂ s.id
    | arriveEnd s =>
      show List.Sublist ((startArrivals evs).map IState.id) (s.id :: arrivalIds evs)
      exact ih.cons s.id
    | popBest => exact ih

theorem endArrivals_sublist (evs : List CEvent) :
    List.Sublist ((endArrivals evs).map IState.id) (arrivalIds evs) := by
  induction evs with
  | nil => simp [endArrivals, arrivalIds]
  | cons e evs ih =>
    cases e with
    | arriveStart s =>
      show List.Sublist ((endArrivals evs).map IState.id) (s.id :: arrivalIds evs)
      exact ih.cons s.id
    | arriveEnd s =>
      show List.Sublist (s.id :: (endArrivals evs).map IState.id) (s.id :: arrivalIds evs)
      exact ih.cons₂ s.id
    | popBest => exact ih

theorem nodup_pending_popped (evs : List CEvent)
    (hfresh : (arrivalIds evs).Nodup) :
    (((runC evs).pending ++ (runC evs).popped).map idPair).Nodup := by
  have h1 : ((startArrivals evs).map IState.id).Nodup :=
    hfresh.sublist (startArrivals_sublist evs)
  have h2 : ((endArrivals evs).map IState.id).Nodup :=
    hfresh.sublist (endArrivals_sublist evs)
  have hperm := (perm_pending_popped evs).map idPair
  refine hperm.nodup_iff.mpr ?_
  rw [starts_run evs, ends_run evs]
  exact nodup_allPairs_idPair _ _ h1 h2

theorem popped_monotone (evs : List CEvent) :
    ∀ (cs : ConnState) (a : StatePair), a ∈ cs.popped → a ∈ (evs.foldl stepC cs).popped := by
  induction evs with
  | nil => intro cs a h; exact h
  | cons e evs ih =>
    intro cs a h
    refine ih (stepC cs e) a ?_
    cases e with
    | arriveStart s => exact h
    | arriveEnd s => exact h
    | popBest =>
      show a ∈ (popPending cs).popped
      cases hp : cs.pending with
      | nil => simpa [popPending, hp] using h
      | cons p rest =>
        have : (popPending cs).popped = cs.popped ++ [p] := by simp [popPending, hp]
        rw [this]
        exact List.mem_append_left _ h

/-! ## Stage interface flags -/

/-- InterfaceFlag bit: the stage reads from its start interface. -/
def READS_START : Nat := 1

/-- InterfaceFlag bit: the stage reads from its end interface. -/
def READS_END : Nat := 2

/-- InterfaceFlag bit: the stage writes to the next stage's start interface. -/
def WRITES_NEXT_START : Nat := 4

/-- InterfaceFlag bit: the stage writes to the previous stage's end interface. -/
def WRITES_PREV_END : Nat := 8

/-- `PropagatingEitherWay::Direction`: the propagation direction configured
at construction, or AUTO when it is to be detected from the neighbors. -/
inductive PDirection
  | AUTO
  | FORWARD
  | BACKWARD
  | BOTH
deriving DecidableEq

/-- The kinds of computing stage provided by the kernel. -/
inductive StageKind
  | generator
  | monitoringGenerator
  | connecting
  | propagating (dir : PDirection)
deriving DecidableEq

/-- Modelled from the spec: the `requiredInterface()` overrides (bodies in
`stage.cpp`, not among the sources; the contract is documented at
`stage_p.h` lines 67-70: if the interface is unknown because it is
auto-detected from context, return 0). Spec §4.4: a generator originates
states pushed in both directions; a connecting stage reads both
interfaces; a propagating stage reads and writes along its configured
direction(s). -/
def requiredInterfaceOf : StageKind → Nat
  | .generator => WRITES_NEXT_START ||| WRITES_PREV_END
  | .monitoringGenerator => WRITES_NEXT_START ||| WRITES_PREV_END
  | .connecting => READS_START ||| READS_END
  | .propagating .AUTO => 0
  | .propagating .FORWARD => READS_START ||| WRITES_NEXT_START
  | .propagating .BACKWARD => READS_END ||| WRITES_PREV_END
  | .propagating .BOTH => READS_START ||| WRITES_NEXT_START ||| READS_END ||| WRITES_PREV_END

/-- Whether a stage kind's interface shape is auto-detected from its
neighbors and not yet resolved: only an either-way propagating stage whose
direction is still AUTO. -/
def autoDetectedShape : StageKind → Bool
  | .propagating .AUTO => true
  | _ => false

/-! ## Failure bookkeeping -/

/-- A failure record (one failed computation attempt). -/
structure FailureRec where
  comment : String
deriving DecidableEq

/-- The bookkeeping fields of `StagePrivate` relevant to failure retention:
the introspection pointer (`introspection_`, null modelled as `none`), the
retained failure records (`failures_`) and the failure counter
(`num_failures_`). -/
structure StageBook where
  introspection : Option Nat
  failures : List FailureRec
  num_failures : Nat
deriving DecidableEq

/-- `StagePrivate::storeFailures` from the source (`stage_p.h` line 124):
`return introspection_ != nullptr;`. -/
def storeFailures (st : StageBook) : Bool := st.introspection.isSome

/-- Modelled from the spec: the failure branch of
`StagePrivate::storeSolution` (body in `stage.cpp`, not among the sources).
Spec §4.3/§9: a stage with introspection attached retains failed attempts;
otherwise the failure is only counted, not retained; the toggle is exactly
`storeFailures`. -/
def recordFailure (st : StageBook) (f : FailureRec) : StageBook :=
  if storeFailures st then { st with failures := st.failures ++ [f] }
  else { st with num_failures := st.num_failures + 1 }

/-! ## Weak references to neighbor interfaces -/

/-- `Interface::Direction` from the source. -/
inductive Direction
  | FORWARD
  | BACKWARD
deriving DecidableEq

/-- The world of interface queues: which interface identities are still
alive, and the states pushed so far, as (interface, state) records. An
`InterfaceWeakPtr` is modelled as an optional interface identity that
resolves only while its interface is alive. -/
structure IfaceSys where
  alive : List Nat
  contents : List (Nat × Nat)
deriving DecidableEq

/-- `std::weak_ptr::lock` on an `InterfaceWeakPtr`: yields an empty shared
pointer when the pointed-to interface no longer exists. -/
def lockW (sys : IfaceSys) : Option Nat → Option Nat
  | none => none
  | some i => if i ∈ sys.alive then some i else none

/-- The neighbor links of `StagePrivate` (`prev_ends_` and `next_starts_`,
`stage_p.h` lines 147-148): weak references to the push interfaces owned by
the neighboring stages. -/
structure StageLinks where
  prev_ends : Option Nat
  next_starts : Option Nat
deriving DecidableEq

/-- `StagePrivate::prevEnds` from the source: `prev_ends_.lock()`. -/
def prevEndsOf (sys : IfaceSys) (st : StageLinks) : Option Nat :=
  lockW sys st.prev_ends

/-- `StagePrivate::nextStarts` from the source: `next_starts_.lock()`. -/
def nextStartsOf (sys : IfaceSys) (st : StageLinks) : Option Nat :=
  lockW sys st.next_starts

/-- `StagePrivate::pushInterface` from the source (`stage_p.h` line 101):
`dir == Interface::FORWARD ? next_starts_.lock() : prev_ends_.lock()`. -/
def pushInterfaceOf (sys : IfaceSys) (st : StageLinks) : Direction → Option Nat
  | .FORWARD => lockW sys st.next_starts
  | .BACKWARD => lockW sys st.prev_ends

/-- Destruction of the stage owning an interface: the interface queue and
its contents disappear from the world. -/
def destroyInterface (sys : IfaceSys) (i : Nat) : IfaceSys :=
  { alive := sys.alive.filter (fun a => a != i)
    contents := sys.contents.filter (fun c => c.1 != i) }

/-- Modelled from the spec: pushing a state toward a neighbor
(`sendForward`/`sendBackward` bodies in `stage.cpp`, not among the
sources). Spec §7: pushing to a neighbor whose queue has been torn down is
handled as a no-op, never as undefined behavior; otherwise the state is
added to the resolved push interface. -/
def pushState (sys : IfaceSys) (st : StageLinks) (dir : Direction) (x : Nat) : IfaceSys :=
  match pushInterfaceOf sys st dir with
  | none => sys
  | some i => { sys with contents := sys.contents ++ [(i, x)] }

/-! ## Monitoring generator registration -/

/-- The solution-callback registry of a monitored stage
(`StagePrivate::solution_cbs_`), together with a counter generating fresh
registration handles (modelling the distinct `std::list` iterators returned
by registration). -/
structure MonitoredStage where
  cbs : List Nat
  next_handle : Nat
deriving DecidableEq

/-- Registering a solution callback appends an entry and returns its fresh
handle (`Stage::addSolutionCallback`). -/
def addSolutionCallback (m : MonitoredStage) : MonitoredStage × Nat :=
  ({ cbs := m.cbs ++ [m.next_handle], next_handle := m.next_handle + 1 }, m.next_handle)

/-- Unregistering a solution callback by handle
(`Stage::removeSolutionCallback`). -/
def removeSolutionCallback (m : MonitoredStage) (h : Nat) : MonitoredStage :=
  { m with cbs := m.cbs.filter (fun c => c != h) }

/-- The registration fields of `MonitoringGeneratorPrivate` (`stage_p.h`
lines 230-242): the stored callback handle `cb_` and the flag
`registered_`. -/
structure MonGen where
  cb : Nat
  registered : Bool
deriving DecidableEq

/-- All handles handed out so far are below the fresh-handle counter. -/
abbrev handlesValid (m : MonitoredStage) : Prop :=
  ∀ c ∈ m.cbs, c < m.next_handle

/-- Modelled from the spec: registering the monitoring generator's solution
callback at the monitored stage (performed in `stage.cpp`, not among the
sources). Spec §4.4: subscribe is idempotent: when already registered
(`registered_`), nothing is added. -/
def subscribeMG (m : MonitoredStage) (g : MonGen) : MonitoredStage × MonGen :=
  if g.registered then (m, g)
  else
    let r := addSolutionCallback m
    (r.1, { cb := r.2, registered := true })

/-- Modelled from the spec: unregistering the monitoring generator's solution
callback. Spec §4.4: unsubscribe is idempotent: a no-op when not
registered; otherwise the registered entry is removed from the monitored
stage. -/
def unsubscribeMG (m : MonitoredStage) (g : MonGen) : MonitoredStage × MonGen :=
  if g.registered then (removeSolutionCallback m g.cb, { g with registered := false })
  else (m, g)

/-! ## The rviz task display (`task_display.cpp`) -/

/-- `moveit_task_constructor::TaskDescription` message: its `id` field plus
an opaque payload. -/
structure TaskDescriptionMsg where
  id : String
  payload : Nat
deriving DecidableEq

/-- `moveit_task_constructor::TaskStatistics` message: its `id` field plus an
opaque payload. -/
structure TaskStatisticsMsg where
  id : String
  payload : Nat
deriving DecidableEq

/-- `moveit_task_constructor::Solution` message: its `task_id` field plus an
opaque payload standing for the contained trajectory. -/
structure SolutionMsg where
  task_id : String
  payload : Nat
deriving DecidableEq

/-- The `TaskListModel`: records the messages applied to it
(`processTaskDescriptionMessage`, `processTaskStatisticsMessage`,
`processSolutionMessage`), in application order. -/
structure TaskListModel where
  descs : List (String × Nat)
  stats : List (String × Nat)
  sols : List (String × Nat)
deriving DecidableEq

/-- A queued main-loop job: the deep embedding of the three lambda shapes
that `task_display.cpp` (lines 146-173) ever puts into `mainloop_jobs_`. -/
inductive Job
  | descJob (id : String) (payload : Nat)
  | statJob (id : String) (payload : Nat)
  | solJob (id : String) (payload : Nat)
deriving DecidableEq

/-- The state of a `TaskDisplay`: the pending main-loop job queue, the task
list model (`none` when `TaskListModelCache` failed to create one), and the
trajectories handed to `trajectory_visual_->showTrajectory`, in order. -/
structure DisplayState where
  mainloop_jobs : List Job
  task_list_model : Option TaskListModel
  shown : List Nat
deriving DecidableEq

/-- `TaskDisplay::taskDescriptionCB` from the source (lines 146-153): builds
`id` from the publisher name and the message id, and only enqueues a job
into `mainloop_jobs_`. -/
def taskDescriptionCB (st : DisplayState) (pub : String) (msg : TaskDescriptionMsg) : DisplayState :=
  { st with mainloop_jobs := st.mainloop_jobs ++ [Job.descJob (pub ++ "/" ++ msg.id) msg.payload] }

/-- `TaskDisplay::taskStatisticsCB` from the source (lines 155-162): builds
`id` from the publisher name and the message id, and only enqueues a job. -/
def taskStatisticsCB (st : DisplayState) (pub : String) (msg : TaskStatisticsMsg) : DisplayState :=
  { st with mainloop_jobs := st.mainloop_jobs ++ [Job.statJob (pub ++ "/" ++ msg.id) msg.payload] }

/-- `TaskDisplay::taskSolutionCB` from the source (lines 164-173): builds
`id` from the publisher name and the message's `task_id`, and only enqueues
a job. -/
def taskSolutionCB (st : DisplayState) (pub : String) (msg : SolutionMsg) : DisplayState :=
  { st with mainloop_jobs := st.mainloop_jobs ++ [Job.solJob (pub ++ "/" ++ msg.task_id) msg.payload] }

/-- Running one queued job: the bodies of the lambdas in
`task_display.cpp`. The description/statistics jobs call the model (they
are only subscribed while a model exists, `updateTaskListModel` lines
194-213); the solution job (lines 168-172) guards
`processSolutionMessage` with `if (task_list_model_)` and then calls
`trajectory_visual_->showTrajectory(*msg)` unconditionally. -/
def runJob (st : DisplayState) : Job → DisplayState
  | .descJob id p =>
    { st with task_list_model :=
        st.task_list_model.map (fun m => { m with descs := m.descs ++ [(id, p)] }) }
  | .statJob id p =>
    { st with task_list_model :=
        st.task_list_model.map (fun m => { m with stats := m.stats ++ [(id, p)] }) }
  | .solJob id p =>
    let st1 := match st.task_list_model with
      | some m => { st with task_list_model := some { m with sols := m.sols ++ [(id, p)] } }
      | none => st
    { st1 with shown := st1.shown ++ [p] }

/-- `JobQueue::executeJobs` as invoked from `TaskDisplay::update` (line
128): runs all queued jobs in order and empties the queue. -/
def executeJobs (st : DisplayState) : DisplayState :=
  st.mainloop_jobs.foldl runJob { st with mainloop_jobs := [] }

/-- `TaskDisplay::update` from the source (lines 125-130): executes the
queued main-loop jobs on the display's update thread (the trajectory
visual's own per-frame update does not touch the modelled fields). -/
def updateDisplay (st : DisplayState) : DisplayState := executeJobs st

theorem runJob_mainloop_jobs (st : DisplayState) (j : Job) :
    (runJob st j).mainloop_jobs = st.mainloop_jobs := by
  cases j with
  | descJob id p => rfl
  | statJob id p => rfl
  | solJob id p =>
    rcases st with ⟨js, mdl, sh⟩
    cases mdl <;> rfl

theorem foldl_runJob_mainloop_jobs (js : List Job) :
    ∀ st : DisplayState, (js.foldl runJob st).mainloop_jobs = st.mainloop_jobs := by
  induction js with
  | nil => intro st; rfl
  | cons j js ih => intro st; rw [List.foldl_cons, ih, runJob_mainloop_jobs]

theorem executeJobs_append (st : DisplayState) (j : Job) :
    executeJobs { st with mainloop_jobs := st.mainloop_jobs ++ [j] }
      = runJob (executeJobs st) j := by
  show (st.mainloop_jobs ++ [j]).foldl runJob { st with mainloop_jobs := [] } = _
  rw [List.foldl_append]
  rfl

/-! ## The claims -/

/-- C1: for the Connecting stage, every pending pair's key is the sum of its
two member states' priorities; the front of the pending queue (the pair
that `compute()` pops) has minimal combined priority among all pending
pairs; and — over any run in which states arriving at the interfaces are
distinct — a pair that has been popped is never pending again nor popped a
second time. -/
theorem connecting_pending_key_min_norepeat (e1 e2 : List CEvent)
    (hfresh : (arrivalIds (e1 ++ e2)).Nodup) :
    (∀ p ∈ (runC (e1 ++ e2)).pending, pairKey p = p.1.priority + p.2.priority)
    ∧ (∀ (p : StatePair) (rest : List StatePair),
        (runC (e1 ++ e2)).pending = p :: rest → ∀ q ∈ p :: rest, pairKey p ≤ pairKey q)
    ∧ (∀ p ∈ (runC e1).popped, p ∉ (runC (e1 ++ e2)).pending)
    ∧ ((runC (e1 ++ e2)).popped.map idPair).Nodup := by
  have hnodup := nodup_pending_popped (e1 ++ e2) hfresh
  rw [List.map_append] at hnodup
  rcases List.nodup_append.mp hnodup with ⟨hpend, hpop, hdisj⟩
  refine ⟨?_, ?_, ?_, hpop⟩
  · intro p _
    rfl
  · intro p rest hp q hq
    have hsorted := sorted_pending (e1 ++ e2)
    rw [hp] at hsorted
    rcases List.pairwise_cons.mp hsorted with ⟨hhead, _⟩
    rcases List.mem_cons.mp hq with hq | hq
    · exact hq ▸ Nat.le_refl _
    · exact hhead q hq
  · intro p hp hmem
    have hsplit : runC (e1 ++ e2) = e2.foldl stepC (runC e1) := by
      simp [runC, List.foldl_append]
    have hpopped : p ∈ (runC (e1 ++ e2)).popped := by
      rw [hsplit]
      exact popped_monotone e2 (runC e1) p hp
    exact hdisj (List.mem_map.mpr ⟨p, hmem, rfl⟩) (List.mem_map.mpr ⟨p, hpopped, rfl⟩)

/-- Witness for C1 at a concrete run: a start state (id 0, priority 1), an
end state (id 1, priority 2), one pop, then another start state arrives;
the popped pair is no longer pending. -/
theorem connecting_pending_key_min_norepeat_witness :
    (arrivalIds ([CEvent.arriveStart ⟨0, 1⟩, CEvent.arriveEnd ⟨1, 2⟩, CEvent.popBest]
        ++ [CEvent.arriveStart ⟨2, 0⟩])).Nodup
    ∧ ((⟨0, 1⟩ : IState), (⟨1, 2⟩ : IState))
        ∉ (runC ([CEvent.arriveStart ⟨0, 1⟩, CEvent.arriveEnd ⟨1, 2⟩, CEvent.popBest]
            ++ [CEvent.arriveStart ⟨2, 0⟩])).pending :=
  ⟨by decide,
    (connecting_pending_key_min_norepeat
        [CEvent.arriveStart ⟨0, 1⟩, CEvent.arriveEnd ⟨1, 2⟩, CEvent.popBest]
        [CEvent.arriveStart ⟨2, 0⟩] (by decide)).2.2.1
      ((⟨0, 1⟩ : IState), (⟨1, 2⟩ : IState)) (by decide)⟩

/-- C2: after any interleaving of N start-state arrivals, M end-state
arrivals and pops, the pending queue holds exactly N×M pairs minus those
already popped; moreover pending and popped pairs together are exactly the
pairs of one available start state with one available end state, each once
(as a multiset). -/
theorem connecting_pair_count (evs : List CEvent) :
    (runC evs).pending.length + (runC evs).popped.length
      = (startArrivals evs).length * (endArrivals evs).length
    ∧ (runC evs).pending.length
      = (startArrivals evs).length * (endArrivals evs).length - (runC evs).popped.length
    ∧ List.Perm ((runC evs).pending ++ (runC evs).popped)
        (allPairs (runC evs).starts (runC evs).ends) := by
  have h := pending_popped_length evs
  rw [starts_run evs, ends_run evs] at h
  exact ⟨h, by omega, perm_pending_popped evs⟩

/-- C3: the Connecting stage's `canCompute()` returns true iff its pending
queue is non-empty. -/
theorem connecting_canCompute_iff (cs : ConnState) :
    canComputeC cs = true ↔ cs.pending ≠ [] := by
  cases hp : cs.pending <;> simp [canComputeC, hp]

/-- C4: the cost-ordered container keeps elements sorted by ascending key
and, among elements of equal key, in insertion order (FIFO): the
subsequence of elements at any fixed key value equals that of the insertion
sequence; the iteration order is thus a function of the insertion sequence
alone. -/
theorem ordered_fifo_stable {α : Type} (key : α → Nat) (xs : List α) (c : Nat) :
    sortedLe key (buildOrdered key xs)
    ∧ (buildOrdered key xs).filter (fun a => key a == c)
        = xs.filter (fun a => key a == c) := by
  constructor
  · exact sorted_buildOrdered_aux key xs [] (by simp [sortedLe])
  · have h := filter_buildOrdered_aux key c xs [] (by simp [sortedLe])
    simpa using h

/-- C5: `requiredInterface()` returns the empty flag set (0, "unknown")
exactly for a stage whose interface shape is still auto-detected (an
either-way propagating stage with direction AUTO); every fixed-shape stage
kind returns its declared direction flags. -/
theorem requiredInterface_auto_unknown :
    (∀ k : StageKind, autoDetectedShape k = true ↔ requiredInterfaceOf k = 0)
    ∧ requiredInterfaceOf (.propagating .AUTO) = 0
    ∧ requiredInterfaceOf .generator = (WRITES_NEXT_START ||| WRITES_PREV_END)
    ∧ requiredInterfaceOf .monitoringGenerator = (WRITES_NEXT_START ||| WRITES_PREV_END)
    ∧ requiredInterfaceOf .connecting = (READS_START ||| READS_END)
    ∧ requiredInterfaceOf (.propagating .FORWARD) = (READS_START ||| WRITES_NEXT_START)
    ∧ requiredInterfaceOf (.propagating .BACKWARD) = (READS_END ||| WRITES_PREV_END)
    ∧ requiredInterfaceOf (.propagating .BOTH)
        = (READS_START ||| WRITES_NEXT_START ||| READS_END ||| WRITES_PREV_END) := by
  refine ⟨?_, by decide, rfl, rfl, rfl, rfl, rfl, rfl⟩
  intro k
  cases k with
  | generator => decide
  | monitoringGenerator => decide
  | connecting => decide
  | propagating d => cases d <;> decide

/-- C6: a failed computation attempt is retained in the failures list iff
introspection is attached (`storeFailures`, which is exactly
`introspection_ != nullptr`); otherwise only the failure counter is
incremented and no record is kept. -/
theorem failure_retention_policy (st : StageBook) (f : FailureRec) :
    storeFailures st = st.introspection.isSome
    ∧ (recordFailure st f).failures
        = (if storeFailures st then st.failures ++ [f] else st.failures)
    ∧ (recordFailure st f).num_failures
        = (if storeFailures st then st.num_failures else st.num_failures + 1) := by
  refine ⟨rfl, ?_, ?_⟩ <;>
    by_cases h : storeFailures st <;> simp [recordFailure, h]

/-- C7: a stage holds its push targets only as weak references: after the
interfaces a stage's `next_starts_` and `prev_ends_` point to are
destroyed, `nextStarts()`, `prevEnds()` and `pushInterface()` all return an
empty pointer, and a subsequent push in either direction is a no-op. -/
theorem weak_neighbor_push_noop (sys : IfaceSys) (st : StageLinks) (i j x : Nat)
    (hn : st.next_starts = some i) (hp : st.prev_ends = some j) :
    nextStartsOf (destroyInterface (destroyInterface sys i) j) st = none
    ∧ prevEndsOf (destroyInterface (destroyInterface sys i) j) st = none
    ∧ pushInterfaceOf (destroyInterface (destroyInterface sys i) j) st Direction.FORWARD = none
    ∧ pushInterfaceOf (destroyInterface (destroyInterface sys i) j) st Direction.BACKWARD = none
    ∧ pushState (destroyInterface (destroyInterface sys i) j) st Direction.FORWARD x
        = destroyInterface (destroyInterface sys i) j
    ∧ pushState (destroyInterface (destroyInterface sys i) j) st Direction.BACKWARD x
        = destroyInterface (destroyInterface sys i) j := by
  have hself : ∀ (l : List Nat) (a : Nat), a ∉ l.filter (fun b => b != a) := by
    intro l a hmem
    have h := (List.mem_filter.mp hmem).2
    simp at h
  have hi : i ∉ (destroyInterface (destroyInterface sys i) j).alive := by
    intro hmem
    exact hself _ i (List.mem_filter.mp hmem).1
  have hj : j ∉ (destroyInterface (destroyInterface sys i) j).alive := by
    intro hmem
    exact hself _ j hmem
  have h1 : nextStartsOf (destroyInterface (destroyInterface sys i) j) st = none := by
    simp [nextStartsOf, lockW, hn, hi]
  have h2 : prevEndsOf (destroyInterface (destroyInterface sys i) j) st = none := by
    simp [prevEndsOf, lockW, hp, hj]
  refine ⟨h1, h2, h1, h2, ?_, ?_⟩
  · show (match pushInterfaceOf (destroyInterface (destroyInterface sys i) j) st Direction.FORWARD with
      | none => destroyInterface (destroyInterface sys i) j
      | some k => { destroyInterface (destroyInterface sys i) j with
          contents := (destroyInterface (destroyInterface sys i) j).contents ++ [(k, x)] }) = _
    rw [show pushInterfaceOf (destroyInterface (destroyInterface sys i) j) st Direction.FORWARD = none from h1]
  · show (match pushInterfaceOf (destroyInterface (destroyInterface sys i) j) st Direction.BACKWARD with
      | none => destroyInterface (destroyInterface sys i) j
      | some k => { destroyInterface (destroyInterface sys i) j with
          contents := (destroyInterface (destroyInterface sys i) j).contents ++ [(k, x)] }) = _
    rw [show pushInterfaceOf (destroyInterface (destroyInterface sys i) j) st Direction.BACKWARD = none from h2]

/-- Witness for C7: a concrete world with interfaces 5 and 7, a stage whose
next-start link points to 5 and whose prev-end link points to 7; after both
are destroyed, a forward push is a no-op. -/
theorem weak_neighbor_push_noop_witness :
    (StageLinks.mk (some 7) (some 5)).next_starts = some 5
    ∧ (StageLinks.mk (some 7) (some 5)).prev_ends = some 7
    ∧ pushState (destroyInterface (destroyInterface ⟨[5, 7], []⟩ 5) 7)
        (StageLinks.mk (some 7) (some 5)) Direction.FORWARD 3
      = destroyInterface (destroyInterface ⟨[5, 7], []⟩ 5) 7 :=
  ⟨rfl, rfl,
    (weak_neighbor_push_noop ⟨[5, 7], []⟩ (StageLinks.mk (some 7) (some 5)) 5 7 3
      rfl rfl).2.2.2.2.1⟩

/-- C8: the three subscriber callbacks of the task display never touch the
task model or the trajectory visualization directly: each only appends one
job to the main-loop queue; the enqueued work is performed exactly when
`update()` executes the job queue, which also empties it. -/
theorem async_messages_enqueued_only (st : DisplayState) (pub : String)
    (dm : TaskDescriptionMsg) (sm : TaskStatisticsMsg) (om : SolutionMsg) :
    (taskDescriptionCB st pub dm).task_list_model = st.task_list_model
    ∧ (taskDescriptionCB st pub dm).shown = st.shown
    ∧ (taskDescriptionCB st pub dm).mainloop_jobs
        = st.mainloop_jobs ++ [Job.descJob (pub ++ "/" ++ dm.id) dm.payload]
    ∧ (taskStatisticsCB st pub sm).task_list_model = st.task_list_model
    ∧ (taskStatisticsCB st pub sm).shown = st.shown
    ∧ (taskStatisticsCB st pub sm).mainloop_jobs
        = st.mainloop_jobs ++ [Job.statJob (pub ++ "/" ++ sm.id) sm.payload]
    ∧ (taskSolutionCB st pub om).task_list_model = st.task_list_model
    ∧ (taskSolutionCB st pub om).shown = st.shown
    ∧ (taskSolutionCB st pub om).mainloop_jobs
        = st.mainloop_jobs ++ [Job.solJob (pub ++ "/" ++ om.task_id) om.payload]
    ∧ updateDisplay (taskDescriptionCB st pub dm)
        = runJob (updateDisplay st) (Job.descJob (pub ++ "/" ++ dm.id) dm.payload)
    ∧ updateDisplay (taskStatisticsCB st pub sm)
        = runJob (updateDisplay st) (Job.statJob (pub ++ "/" ++ sm.id) sm.payload)
    ∧ updateDisplay (taskSolutionCB st pub om)
        = runJob (updateDisplay st) (Job.solJob (pub ++ "/" ++ om.task_id) om.payload)
    ∧ (updateDisplay st).mainloop_jobs = [] := by
  refine ⟨rfl, rfl, rfl, rfl, rfl, rfl, rfl, rfl, rfl, ?_, ?_, ?_, ?_⟩
  · exact executeJobs_append st (Job.descJob (pub ++ "/" ++ dm.id) dm.payload)
  · exact executeJobs_append st (Job.statJob (pub ++ "/" ++ sm.id) sm.payload)
  · exact executeJobs_append st (Job.solJob (pub ++ "/" ++ om.task_id) om.payload)
  · exact foldl_runJob_mainloop_jobs st.mainloop_jobs _

/-- C9: subscribing the monitoring generator's callback when already
registered adds no second entry (subscribe is idempotent); unsubscribing
when not registered is a no-op; and after subscribe followed by unsubscribe
no callback entry of this generator remains on the monitored stage. -/
theorem monitoring_subscribe_idempotent (m : MonitoredStage) (g : MonGen)
    (hm : handlesValid m) (hg : g.registered = false) :
    subscribeMG (subscribeMG m g).1 (subscribeMG m g).2 = subscribeMG m g
    ∧ unsubscribeMG m g = (m, g)
    ∧ (unsubscribeMG (subscribeMG m g).1 (subscribeMG m g).2).1.cbs = m.cbs
    ∧ (unsubscribeMG (subscribeMG m g).1 (subscribeMG m g).2).2.registered = false := by
  refine ⟨?_, ?_, ?_, ?_⟩
  · simp [subscribeMG, hg, addSolutionCallback]
  · simp [unsubscribeMG, hg]
  · simp only [subscribeMG, hg, Bool.false_eq_true, if_false, unsubscribeMG, if_true,
      addSolutionCallback, removeSolutionCallback]
    rw [List.filter_append]
    have h1 : m.cbs.filter (fun c => c != m.next_handle) = m.cbs := by
      apply List.filter_eq_self.mpr
      intro a ha
      have := hm a ha
      simp [Nat.ne_of_lt this]
    have h2 : [m.next_handle].filter (fun c => c != m.next_handle) = [] := by
      simp
    rw [h1, h2, List.append_nil]
  · simp [subscribeMG, hg, unsubscribeMG, addSolutionCallback]

/-- Witness for C9: a monitored stage with callbacks 0 and 1 and fresh
handle 2, and an unregistered generator; after subscribe then unsubscribe
the callback list is back to its original entries. -/
theorem monitoring_subscribe_idempotent_witness :
    handlesValid ⟨[0, 1], 2⟩ ∧ (MonGen.mk 0 false).registered = false
    ∧ (unsubscribeMG (subscribeMG ⟨[0, 1], 2⟩ (MonGen.mk 0 false)).1
        (subscribeMG ⟨[0, 1], 2⟩ (MonGen.mk 0 false)).2).1.cbs = [0, 1] :=
  ⟨by decide, rfl,
    (monitoring_subscribe_idempotent ⟨[0, 1], 2⟩ (MonGen.mk 0 false)
      (by decide) rfl).2.2.1⟩

/-- C10: running the job enqueued for a received Solution message hands the
trajectory to `showTrajectory` unconditionally — also when no task list
model exists — while the model update (`processSolutionMessage`) happens
only when the model pointer is non-null. -/
theorem solution_job_shows_unconditionally (st : DisplayState) (id : String) (p : Nat) :
    (runJob st (Job.solJob id p)).shown = st.shown ++ [p]
    ∧ (runJob st (Job.solJob id p)).task_list_model
        = st.task_list_model.map (fun m => { m with sols := m.sols ++ [(id, p)] }) := by
  rcases st with ⟨js, mdl, sh⟩
  cases mdl <;> simp [runJob]

end MTC
